import Mathlib

/-!
Verification of the Gaussian classifier engine of the `go-pr` pattern
recognition library (`pr.go`, `gauss.go`).

Modelling conventions of the shallow embedding:

* Go `float64` values are modelled as exact rationals `ℚ`; the two
  transcendental ingredients of the code, `math.Log` and the constant
  `2 * math.Pi`, are passed in as parameters `log : ℚ → ℚ` and `twoPi : ℚ`
  wherever the code uses them.
* Go run-time panics (out-of-range slice indexing) and the `return nil`
  failure of training are modelled by `Option`: `none` means the call does
  not return normally.
* The external matrix library calls `mat.Inverse()` (which reports an error
  exactly on a singular matrix), `inv.Scale`, `mat.Det()` and `inv.Array()`
  are modelled by their mathematical contract over `ℚ`: an executable
  cofactor determinant `detQ` (proved equal to `Matrix.det`), an executable
  adjugate-based inverse `matInverse` (proved to agree with `Matrix.inv`
  when the determinant is nonzero), pointwise scalar multiplication, and
  row-major flattening `matFlatten`.
* The `LabeledFeatureSet` interface of `pr.go` becomes a structure of its
  four operations; `FetchFeature label index` fills a buffer of length
  `Dim`, modelled as the function `Nat → ℚ` giving the buffer contents.
-/

/-- The `LabeledFeatureSet` interface from `pr.go`: dimension, label count,
per-label sample count, and indexed fetch. `FetchFeature lbl i k` is the
`k`-th coordinate of the buffer filled by the Go call
`FetchFeature(lbl, i, x)`. -/
structure LabeledFeatureSet where
  Dim : Nat
  LabelCount : Nat
  FeatureCount : Nat → Nat
  FetchFeature : Nat → Nat → Nat → ℚ

/-- The `GaussianClassifier` struct from `gauss.go`. `Precs` stores each
label's `dim × dim` precision matrix as a row-major flat list, exactly as the
Go code stores `inv.Array()`. A `nil` `LogPrior` slice is `none`. -/
structure GaussianClassifier where
  Means : List (List ℚ)
  Precs : List (List ℚ)
  LogCoefs : List ℚ
  LogPrior : Option (List ℚ)
deriving DecidableEq

/-- One iteration of the `SetPrior` loop of `gauss.go`: the assignment
`gc.LogPrior[i] = math.Log(priors[i])`, which panics (`none`) when `i` is
out of range of the current `LogPrior` slice. -/
def setPriorStep (log : ℚ → ℚ) (priors : List ℚ) (cur : List ℚ) (i : Nat) : Option (List ℚ) :=
  if i < cur.length then some (cur.set i (log (priors.getD i 0))) else none

/-- `GaussianClassifier.SetPrior` from `gauss.go`: if `LogPrior` is `nil` it
is allocated with `make([]float64, len(priors))` (all zeroes); then the loop
`for i := range priors` assigns `LogPrior[i] = math.Log(priors[i])`.
Returns the resulting `LogPrior` slice, `none` on a panic. -/
def SetPrior (log : ℚ → ℚ) (lp0 : Option (List ℚ)) (priors : List ℚ) : Option (List ℚ) :=
  let lp := match lp0 with
    | none => List.replicate priors.length 0
    | some l => l
  (List.range priors.length).foldlM (setPriorStep log priors) lp

/-- The loop of `GaussianClassifier.Classify` from `gauss.go`, generic in the
carrier `F` of scores and in the boolean strict comparison `gt` (for
`float64` this is Go's `>`, which is a `Bool`-valued function that is in
particular `false` whenever an operand is NaN). State is
`(bestLogP, bestLabel)`, update happens when `bestLabel < 0 || logP > bestLogP`.
A score that does not compute (`none`, a Go panic) aborts the whole call. -/
def classifyAux {F : Type} (gt : F → F → Bool) (score : Nat → Option F) :
    List Nat → F → Int → Option Int
  | [], _, bestLabel => some bestLabel
  | lbl :: rest, bestLogP, bestLabel =>
    match score lbl with
    | none => none
    | some logP =>
      if decide (bestLabel < 0) || gt logP bestLogP then
        classifyAux gt score rest logP (lbl : Int)
      else
        classifyAux gt score rest bestLogP bestLabel

/-- Inner loop of `GaussianClassifier.LogLikelyhood` for a fixed outer index
`k` with `vk = x[k] - mean[k]` already computed by the outer loop: for `l`
ranging over the mean's indices,
`logP += vk * (x[l]-mean[l]) * prec[k*dim+l]`. Every slice read is
bounds-checked (`none` on panic); `mean[l]` is always in range in the loop,
hence read with `getD`. -/
def likeInner (x mean prec : List ℚ) (dim k : Nat) (vk : ℚ) (acc : ℚ) : Option ℚ :=
  (List.range dim).foldlM (fun acc2 l => do
    let xl ← x[l]?
    let vl := xl - mean.getD l 0
    let p ← prec[k * dim + l]?
    pure (acc2 + vk * vl * p)) acc

/-- `GaussianClassifier.LogLikelyhood` from `gauss.go`:
`logP := LogCoefs[label]`, then for `k` and `l` ranging over the mean's
indices, `logP += (x[k]-mean[k]) * (x[l]-mean[l]) * prec[k*dim+l]`. -/
def LogLikelyhood (gc : GaussianClassifier) (label : Nat) (x : List ℚ) : Option ℚ := do
  let logP ← gc.LogCoefs[label]?
  let mean ← gc.Means[label]?
  let prec ← gc.Precs[label]?
  let dim := mean.length
  (List.range dim).foldlM (fun acc k => do
    let xk ← x[k]?
    likeInner x mean prec dim k (xk - mean.getD k 0) acc) logP

/-- `GaussianClassifier.LogPosterior` from `gauss.go`: the log-likelyhood if
`LogPrior` is `nil`, else the log-likelyhood plus `LogPrior[label]`. -/
def LogPosterior (gc : GaussianClassifier) (label : Nat) (x : List ℚ) : Option ℚ :=
  match gc.LogPrior with
  | none => LogLikelyhood gc label x
  | some lp => do
    let ll ← LogLikelyhood gc label x
    let p ← lp[label]?
    pure (ll + p)

/-- `GaussianClassifier.Classify` from `gauss.go`: starting from
`bestLogP = 0`, `bestLabel = -1`, scan `lbl := range gc.LogCoefs` with the
strict comparison of `ℚ` and return the final `bestLabel`. -/
def Classify (gc : GaussianClassifier) (x : List ℚ) : Option Int :=
  classifyAux (fun a b : ℚ => decide (a > b)) (fun lbl => LogPosterior gc lbl x)
    (List.range gc.LogCoefs.length) 0 (-1)

/-- Executable determinant over `ℚ` by cofactor expansion along the first
row; this is the mathematical contract of `mat.Det()` of the
`go.matrix` library used by `GaussianTrain` (proved equal to `Matrix.det`
in `detQ_eq_det`). -/
def detQ : (n : Nat) → Matrix (Fin n) (Fin n) ℚ → ℚ
  | 0, _ => 1
  | n + 1, A =>
    ∑ j : Fin (n + 1), (-1) ^ (j : ℕ) * A 0 j * detQ n (A.submatrix Fin.succ j.succAbove)

/-- The mathematical contract of `mat.Inverse()` of the `go.matrix` library:
an error (`none`) exactly when the matrix is singular, and otherwise the
true inverse, computed executably as the adjugate divided by the
determinant. -/
def matInverse (n : Nat) (A : Matrix (Fin n) (Fin n) ℚ) : Option (Matrix (Fin n) (Fin n) ℚ) :=
  if detQ n A = 0 then none
  else some ((detQ n A)⁻¹ • Matrix.of fun i j => detQ n (A.updateRow j (Pi.single i 1)))

/-- The row-major flattening `inv.Array()` of a `dim × dim` matrix, the form
in which `GaussianTrain` stores each precision matrix. -/
def matFlatten (n : Nat) (A : Matrix (Fin n) (Fin n) ℚ) : List ℚ :=
  (List.finRange n).flatMap fun k => (List.finRange n).map fun l => A k l

/-- First pass of `GaussianTrain` over label `lbl`: the running sums
`mean[k] += x[k]` over all `cnt` fetched samples, starting from the
zero-initialised `make([]float64, dim)`. -/
def meanSum (lfs : LabeledFeatureSet) (lbl : Nat) : List ℚ :=
  (List.range (lfs.FeatureCount lbl)).foldl
    (fun acc i => List.zipWith (· + ·) acc ((List.range lfs.Dim).map (lfs.FetchFeature lbl i)))
    (List.replicate lfs.Dim 0)

/-- The stored mean of label `lbl` in `GaussianTrain`: the first-pass sums
divided coordinatewise by `float64(cnt)`. -/
def meanList (lfs : LabeledFeatureSet) (lbl : Nat) : List ℚ :=
  (meanSum lfs lbl).map (· / (lfs.FeatureCount lbl : ℚ))

/-- Second pass of `GaussianTrain`: the accumulated value of the
upper-triangle covariance cell `sigma[k*dim+l]` (`k ≤ l`),
`sigma[k*dim+l] += (x[k]-mean[k]) * (x[l]-mean[l])` over all samples of
label `lbl`. Cells with `l < k` are left at `0` by this loop and are filled
by the mirroring step, see `sigmaEntry`. -/
def sigmaUpper (lfs : LabeledFeatureSet) (lbl : Nat) (k l : Nat) : ℚ :=
  ∑ i ∈ Finset.range (lfs.FeatureCount lbl),
    (lfs.FetchFeature lbl i k - (meanList lfs lbl).getD k 0) *
      (lfs.FetchFeature lbl i l - (meanList lfs lbl).getD l 0)

/-- The Bessel division step of `GaussianTrain`: when `cnt > 1` every cell
of `sigma` is divided by `float64(cnt - 1)`; otherwise `sigma` is left as
the raw accumulated sums. -/
def sigmaDivided (lfs : LabeledFeatureSet) (lbl : Nat) (k l : Nat) : ℚ :=
  if 1 < lfs.FeatureCount lbl then
    sigmaUpper lfs lbl k l / ((lfs.FeatureCount lbl - 1 : Nat) : ℚ)
  else sigmaUpper lfs lbl k l

/-- The mirroring step of `GaussianTrain` (comment in the source: copy the
left-bottom part from the right-top part): for `l < k` the cell `(k, l)`
receives the value of the upper cell `(l, k)`. -/
def sigmaEntry (lfs : LabeledFeatureSet) (lbl : Nat) (k l : Nat) : ℚ :=
  if l < k then sigmaDivided lfs lbl l k else sigmaDivided lfs lbl k l

/-- The covariance matrix of label `lbl` handed to `matrix.MakeDenseMatrix`
by `GaussianTrain` (row-major: entry `(k, l)` is `sigma[k*dim+l]`). -/
def sigmaMat (lfs : LabeledFeatureSet) (lbl : Nat) : Matrix (Fin lfs.Dim) (Fin lfs.Dim) ℚ :=
  Matrix.of fun k l => sigmaEntry lfs lbl (k : Nat) (l : Nat)

/-- The body of the per-label training loop of `GaussianTrain`: invert the
covariance (failure aborts training), scale the inverse by `-0.5`, and
produce the triple stored into `Means[lbl]`, `Precs[lbl]`, `LogCoefs[lbl]`,
with `LogCoefs[lbl] = -0.5 * (log(2*Pi)*dim + log(det))`. -/
def trainLabel (log : ℚ → ℚ) (twoPi : ℚ) (lfs : LabeledFeatureSet) (lbl : Nat) :
    Option (List ℚ × List ℚ × ℚ) :=
  match matInverse lfs.Dim (sigmaMat lfs lbl) with
  | none => none
  | some inv =>
    some (meanList lfs lbl,
      matFlatten lfs.Dim ((-(1 / 2) : ℚ) • inv),
      -(1 / 2) * (log twoPi * (lfs.Dim : ℚ) + log (detQ lfs.Dim (sigmaMat lfs lbl))))

/-- The per-label loop of `GaussianTrain` over a list of labels; the Go
`return nil` on an inversion error makes the whole loop produce `none`. -/
def trainLabels (log : ℚ → ℚ) (twoPi : ℚ) (lfs : LabeledFeatureSet) :
    List Nat → Option (List (List ℚ × List ℚ × ℚ))
  | [] => some []
  | lbl :: rest =>
    match trainLabel log twoPi lfs lbl with
    | none => none
    | some r =>
      match trainLabels log twoPi lfs rest with
      | none => none
      | some rs => some (r :: rs)

/-- `GaussianTrain` from `gauss.go`: run the per-label loop over labels
`0 .. LabelCount-1`; on success assemble the classifier (with `nil`
`LogPrior`), on any inversion error return `nil` (`none`). -/
def GaussianTrain (log : ℚ → ℚ) (twoPi : ℚ) (lfs : LabeledFeatureSet) :
    Option GaussianClassifier :=
  match trainLabels log twoPi lfs (List.range lfs.LabelCount) with
  | none => none
  | some rs =>
    some { Means := rs.map (·.1), Precs := rs.map (·.2.1), LogCoefs := rs.map (·.2.2),
           LogPrior := none }

/-! Helper lemmas about the matrix primitives. -/

theorem detQ_eq_det : ∀ (n : Nat) (A : Matrix (Fin n) (Fin n) ℚ), detQ n A = A.det
  | 0, A => (Matrix.det_fin_zero).symm
  | n + 1, A => by
    rw [Matrix.det_succ_row_zero, detQ]
    exact Finset.sum_congr rfl fun j _ => by rw [detQ_eq_det n]

theorem matInverse_eq_inv {n : Nat} (A : Matrix (Fin n) (Fin n) ℚ) (h : detQ n A ≠ 0) :
    matInverse n A = some A⁻¹ := by
  rw [matInverse, if_neg h]
  congr 1
  rw [Matrix.inv_def, Ring.inverse_eq_inv, detQ_eq_det]
  congr 1
  ext i j
  rw [Matrix.adjugate_apply, Matrix.of_apply, detQ_eq_det]

theorem matInverse_eq_none {n : Nat} (A : Matrix (Fin n) (Fin n) ℚ) (h : detQ n A = 0) :
    matInverse n A = none := by
  rw [matInverse, if_pos h]

/-! Helper lemmas about list folds and sums. -/

theorem option_some_bind {α β : Type} (a : α) (f : α → Option β) : (some a >>= f) = f a := rfl

theorem getElem?_eq_some_getD (as : List ℚ) (i : Nat) (h : i < as.length) :
    as[i]? = some (as.getD i 0) := by
  rw [List.getD_eq_getElem _ _ h]
  exact List.getElem?_eq_getElem h

theorem listSum_map_range (f : Nat → ℚ) :
    ∀ n, ((List.range n).map f).sum = ∑ i ∈ Finset.range n, f i
  | 0 => by simp
  | n + 1 => by
    rw [List.range_succ, List.map_append, List.sum_append, Finset.sum_range_succ,
      listSum_map_range f n]
    simp

theorem mul_idx_lt {k l d : Nat} (hk : k < d) (hl : l < d) : k * d + l < d * d :=
  calc k * d + l < k * d + d := by omega
  _ = (k + 1) * d := by ring
  _ ≤ d * d := Nat.mul_le_mul_right d hk

theorem foldlM_eq_some (body : ℚ → Nat → Option ℚ) (t : Nat → ℚ) :
    ∀ (ls : List Nat), (∀ acc l, l ∈ ls → body acc l = some (acc + t l)) →
      ∀ init : ℚ, ls.foldlM body init = some (init + (ls.map t).sum)
  | [], _, init => by simp [List.foldlM_nil]
  | a :: ls, h, init => by
    rw [List.foldlM_cons, h init a (List.mem_cons_self a ls)]
    show ls.foldlM body (init + t a) = _
    rw [foldlM_eq_some body t ls (fun acc l hl => h acc l (List.mem_cons_of_mem a hl))
      (init + t a)]
    simp [add_assoc]

theorem foldlM_range'_none (body : ℚ → Nat → Option ℚ) (t : Nat → ℚ) (bad : Nat)
    (hsome : ∀ acc k, k < bad → body acc k = some (acc + t k))
    (hnone : ∀ acc, body acc bad = none) :
    ∀ (m a : Nat), a ≤ bad → bad < a + m → ∀ init : ℚ,
      (List.range' a m).foldlM body init = none
  | 0, a, ha, hlt, init => by omega
  | m + 1, a, ha, hlt, init => by
    rw [List.range'_succ, List.foldlM_cons]
    rcases eq_or_lt_of_le ha with rfl | h
    · rw [hnone init]
      rfl
    · rw [hsome init a h]
      show (List.range' (a + 1) m).foldlM body (init + t a) = none
      exact foldlM_range'_none body t bad hsome hnone m (a + 1) h (by omega) _

/-! Helper lemmas about `LogLikelyhood`. -/

theorem likeInner_eq_some (x mean prec : List ℚ) (k : Nat) (vk : ℚ)
    (hx : mean.length ≤ x.length) (hpl : prec.length = mean.length * mean.length)
    (hk : k < mean.length) (acc : ℚ) :
    likeInner x mean prec mean.length k vk acc =
      some (acc + ((List.range mean.length).map (fun l =>
        vk * (x.getD l 0 - mean.getD l 0) * prec.getD (k * mean.length + l) 0)).sum) := by
  simp only [likeInner]
  refine foldlM_eq_some _ _ _ ?_ acc
  intro acc2 l hl
  have hl' : l < mean.length := List.mem_range.mp hl
  rw [getElem?_eq_some_getD x l (lt_of_lt_of_le hl' hx),
    getElem?_eq_some_getD prec _ (by rw [hpl]; exact mul_idx_lt hk hl')]
  rfl

theorem likeInner_eq_none (x mean prec : List ℚ) (k : Nat) (vk : ℚ)
    (hpl : prec.length = mean.length * mean.length) (hk : k < mean.length)
    (hx : x.length < mean.length) (acc : ℚ) :
    likeInner x mean prec mean.length k vk acc = none := by
  simp only [likeInner]
  rw [List.range_eq_range' mean.length]
  refine foldlM_range'_none _
    (fun l => vk * (x.getD l 0 - mean.getD l 0) * prec.getD (k * mean.length + l) 0)
    x.length ?_ ?_ mean.length 0 (Nat.zero_le _) (by omega) acc
  · intro acc2 l hl
    rw [getElem?_eq_some_getD x l hl,
      getElem?_eq_some_getD prec _ (by rw [hpl]; exact mul_idx_lt hk (by omega))]
    rfl
  · intro acc2
    rw [List.getElem?_eq_none (le_refl x.length)]
    rfl

theorem logLikelyhood_eq_sum (gc : GaussianClassifier) (label : Nat) (x mean prec : List ℚ)
    (c : ℚ) (hc : gc.LogCoefs[label]? = some c) (hm : gc.Means[label]? = some mean)
    (hp : gc.Precs[label]? = some prec) (hx : mean.length ≤ x.length)
    (hpl : prec.length = mean.length * mean.length) :
    LogLikelyhood gc label x =
      some (c + ∑ k ∈ Finset.range mean.length, ∑ l ∈ Finset.range mean.length,
        (x.getD k 0 - mean.getD k 0) * (x.getD l 0 - mean.getD l 0) *
          prec.getD (k * mean.length + l) 0) := by
  have houter : ∀ (acc : ℚ) (k : Nat), k ∈ List.range mean.length →
      (do
        let xk ← x[k]?
        likeInner x mean prec mean.length k (xk - mean.getD k 0) acc) =
      some (acc + ((List.range mean.length).map (fun l =>
        (x.getD k 0 - mean.getD k 0) * (x.getD l 0 - mean.getD l 0) *
          prec.getD (k * mean.length + l) 0)).sum) := by
    intro acc k hk
    have hk' : k < mean.length := List.mem_range.mp hk
    rw [getElem?_eq_some_getD x k (lt_of_lt_of_le hk' hx)]
    show likeInner x mean prec mean.length k (x.getD k 0 - mean.getD k 0) acc = _
    exact likeInner_eq_some x mean prec k _ hx hpl hk' acc
  simp only [LogLikelyhood, hc, hm, hp, option_some_bind]
  rw [foldlM_eq_some _ _ _ houter c, listSum_map_range]
  refine congrArg some ?_
  refine congrArg (fun s => c + s) ?_
  exact Finset.sum_congr rfl fun k _ => listSum_map_range _ _

theorem logLikelyhood_eq_none (gc : GaussianClassifier) (label : Nat) (x mean prec : List ℚ)
    (c : ℚ) (hc : gc.LogCoefs[label]? = some c) (hm : gc.Means[label]? = some mean)
    (hp : gc.Precs[label]? = some prec)
    (hpl : prec.length = mean.length * mean.length) (hx : x.length < mean.length) :
    LogLikelyhood gc label x = none := by
  simp only [LogLikelyhood, hc, hm, hp, option_some_bind]
  rw [List.range_eq_range' mean.length]
  refine foldlM_range'_none _ (fun _ => 0) 0
    (fun acc k hk => absurd hk (Nat.not_lt_zero k)) ?_ mean.length 0 (le_refl 0) (by omega) c
  intro acc
  rcases Nat.eq_zero_or_pos x.length with h0 | hpos
  · rw [List.getElem?_eq_none (by omega)]
    rfl
  · rw [getElem?_eq_some_getD x 0 hpos]
    show likeInner x mean prec mean.length 0 (x.getD 0 0 - mean.getD 0 0) acc = none
    exact likeInner_eq_none x mean prec 0 _ hpl (by omega) hx acc

/-! Helper lemmas about the classification loop. -/

theorem classifyAux_argmax (score : Nat → Option ℚ) (f : Nat → ℚ) :
    ∀ (m a b : Nat) (bp : ℚ),
      (∀ l, a ≤ l → l < a + m → score l = some (f l)) →
      b < a → f b = bp → (∀ j, j < a → f j ≤ bp) → (∀ j, j < b → f j < bp) →
      ∃ r : Nat,
        classifyAux (fun p q : ℚ => decide (p > q)) score (List.range' a m) bp (b : Int) =
            some (r : Int) ∧
          r < a + m ∧ (∀ j, j < a + m → f j ≤ f r) ∧ ∀ j, j < r → f j < f r
  | 0, a, b, bp, _, hba, hfb, hle, hlt =>
    ⟨b, rfl, by omega, fun j hj => by rw [hfb]; exact hle j (by omega),
      fun j hj => by rw [hfb]; exact hlt j hj⟩
  | m + 1, a, b, bp, hs, hba, hfb, hle, hlt => by
    have hsa : score a = some (f a) := hs a (le_refl a) (by omega)
    have hb0 : decide ((b : Int) < 0) = false := decide_eq_false (by omega)
    rw [List.range'_succ]
    simp only [classifyAux, hsa, hb0, Bool.false_or]
    by_cases hgt : f a > bp
    · rw [decide_eq_true hgt, if_pos rfl]
      obtain ⟨r, hr, hrlt, hrle, hrgt⟩ :=
        classifyAux_argmax score f m (a + 1) a (f a)
          (fun l hl1 hl2 => hs l (by omega) (by omega)) (by omega) rfl
          (fun j hj => by
            rcases Nat.lt_or_ge j a with h | h
            · exact le_of_lt (lt_of_le_of_lt (hle j h) hgt)
            · have hja : j = a := by omega
              rw [hja])
          (fun j hj => lt_of_le_of_lt (hle j hj) hgt)
      exact ⟨r, hr, by omega, fun j hj => hrle j (by omega), hrgt⟩
    · rw [decide_eq_false hgt, if_neg Bool.false_ne_true]
      obtain ⟨r, hr, hrlt, hrle, hrgt⟩ :=
        classifyAux_argmax score f m (a + 1) b bp
          (fun l hl1 hl2 => hs l (by omega) (by omega)) (by omega) hfb
          (fun j hj => by
            rcases Nat.lt_or_ge j a with h | h
            · exact hle j h
            · have hja : j = a := by omega
              rw [hja]
              exact le_of_not_lt hgt)
          hlt
      exact ⟨r, hr, by omega, fun j hj => hrle j (by omega), hrgt⟩

theorem classifyAux_mem {F : Type} (gt : F → F → Bool) (score : Nat → Option F) (n : Nat) :
    ∀ (ls : List Nat) (bp : F) (b : Nat),
      (∀ l ∈ ls, l < n ∧ ∃ v, score l = some v) → b < n →
      ∃ r : Nat, classifyAux gt score ls bp (b : Int) = some (r : Int) ∧ r < n
  | [], _, b, _, hb => ⟨b, rfl, hb⟩
  | a :: ls, bp, b, hls, hb => by
    obtain ⟨ha, v, hv⟩ := hls a (List.mem_cons_self a ls)
    simp only [classifyAux, hv]
    by_cases hcond : (decide ((b : Int) < 0) || gt v bp) = true
    · rw [if_pos hcond]
      exact classifyAux_mem gt score n ls v a
        (fun l hl => hls l (List.mem_cons_of_mem a hl)) ha
    · rw [if_neg hcond]
      exact classifyAux_mem gt score n ls bp b
        (fun l hl => hls l (List.mem_cons_of_mem a hl)) hb

theorem classifyAux_range_pos {F : Type} (gt : F → F → Bool) (score : Nat → Option F)
    (n : Nat) (b0 : F) (hn : 0 < n) (v : F) (hv : score 0 = some v) :
    classifyAux gt score (List.range n) b0 (-1) =
      classifyAux gt score (List.range' 1 (n - 1)) v ((0 : Nat) : Int) := by
  obtain ⟨m, rfl⟩ : ∃ m, n = m + 1 := ⟨n - 1, by omega⟩
  rw [List.range_eq_range', List.range'_succ]
  simp only [classifyAux, hv]
  rw [if_pos]
  · norm_num
  · rw [decide_eq_true (by norm_num : (-1 : Int) < 0), Bool.true_or]

theorem classifyAux_head_none {F : Type} (gt : F → F → Bool) (score : Nat → Option F)
    (a : Nat) (ls : List Nat) (bp : F) (b : Int) (h : score a = none) :
    classifyAux gt score (a :: ls) bp b = none := by
  simp only [classifyAux, h]

theorem classifyAux_congr {F : Type} (gt : F → F → Bool) (s1 s2 : Nat → Option F) :
    ∀ (ls : List Nat) (bp : F) (b : Int), (∀ l ∈ ls, s1 l = s2 l) →
      classifyAux gt s1 ls bp b = classifyAux gt s2 ls bp b
  | [], _, _, _ => rfl
  | a :: ls, bp, b, h => by
    simp only [classifyAux, h a (List.mem_cons_self a ls)]
    cases s2 a with
    | none => rfl
    | some v =>
      show (if (decide (b < 0) || gt v bp) = true then classifyAux gt s1 ls v (a : Int)
          else classifyAux gt s1 ls bp b) =
        (if (decide (b < 0) || gt v bp) = true then classifyAux gt s2 ls v (a : Int)
          else classifyAux gt s2 ls bp b)
      by_cases hcond : (decide (b < 0) || gt v bp) = true
      · rw [if_pos hcond, if_pos hcond]
        exact classifyAux_congr gt s1 s2 ls v a (fun l hl => h l (List.mem_cons_of_mem a hl))
      · rw [if_neg hcond, if_neg hcond]
        exact classifyAux_congr gt s1 s2 ls bp b (fun l hl => h l (List.mem_cons_of_mem a hl))

/-! Helper lemmas about the training passes. -/

theorem meanSum_invariant (lfs : LabeledFeatureSet) (lbl : Nat) :
    ∀ m : Nat,
      ((List.range m).foldl
        (fun acc i => List.zipWith (· + ·) acc ((List.range lfs.Dim).map (lfs.FetchFeature lbl i)))
        (List.replicate lfs.Dim 0)).length = lfs.Dim ∧
      ∀ k, k < lfs.Dim →
        ((List.range m).foldl
          (fun acc i =>
            List.zipWith (· + ·) acc ((List.range lfs.Dim).map (lfs.FetchFeature lbl i)))
          (List.replicate lfs.Dim 0))[k]? =
        some (∑ i ∈ Finset.range m, lfs.FetchFeature lbl i k)
  | 0 => by
    constructor
    · simp
    · intro k hk
      simp [List.getElem?_replicate, hk]
  | m + 1 => by
    obtain ⟨ihlen, ihget⟩ := meanSum_invariant lfs lbl m
    rw [List.range_succ, List.foldl_append, List.foldl_cons, List.foldl_nil]
    constructor
    · rw [List.length_zipWith, ihlen, List.length_map, List.length_range]
      exact Nat.min_self _
    · intro k hk
      rw [List.getElem?_zipWith, ihget k hk]
      have hmap : ((List.range lfs.Dim).map (lfs.FetchFeature lbl m))[k]? =
          some (lfs.FetchFeature lbl m k) := by
        rw [List.getElem?_map, List.getElem?_range hk]
        rfl
      rw [hmap, Finset.sum_range_succ]

theorem meanSum_length (lfs : LabeledFeatureSet) (lbl : Nat) :
    (meanSum lfs lbl).length = lfs.Dim := by
  rw [meanSum]
  exact (meanSum_invariant lfs lbl (lfs.FeatureCount lbl)).1

theorem meanSum_getElem (lfs : LabeledFeatureSet) (lbl k : Nat) (hk : k < lfs.Dim) :
    (meanSum lfs lbl)[k]? =
      some (∑ i ∈ Finset.range (lfs.FeatureCount lbl), lfs.FetchFeature lbl i k) := by
  rw [meanSum]
  exact (meanSum_invariant lfs lbl (lfs.FeatureCount lbl)).2 k hk

theorem meanList_length (lfs : LabeledFeatureSet) (lbl : Nat) :
    (meanList lfs lbl).length = lfs.Dim := by
  rw [meanList, List.length_map, meanSum_length]

theorem meanList_getElem (lfs : LabeledFeatureSet) (lbl k : Nat) (hk : k < lfs.Dim) :
    (meanList lfs lbl)[k]? =
      some ((∑ i ∈ Finset.range (lfs.FeatureCount lbl), lfs.FetchFeature lbl i k) /
        (lfs.FeatureCount lbl : ℚ)) := by
  rw [meanList, List.getElem?_map, meanSum_getElem lfs lbl k hk]
  rfl

theorem meanList_getD (lfs : LabeledFeatureSet) (lbl k : Nat) (hk : k < lfs.Dim) :
    (meanList lfs lbl).getD k 0 =
      (∑ i ∈ Finset.range (lfs.FeatureCount lbl), lfs.FetchFeature lbl i k) /
        (lfs.FeatureCount lbl : ℚ) := by
  have h := meanList_getElem lfs lbl k hk
  have hk' : k < (meanList lfs lbl).length := by
    rw [meanList_length]
    exact hk
  rw [getElem?_eq_some_getD _ _ hk'] at h
  exact Option.some.inj h

theorem sigmaEntry_symm (lfs : LabeledFeatureSet) (lbl k l : Nat) :
    sigmaEntry lfs lbl k l = sigmaEntry lfs lbl l k := by
  unfold sigmaEntry
  rcases Nat.lt_trichotomy k l with h | h | h
  · rw [if_neg (by omega), if_pos h]
  · rw [h]
  · rw [if_pos h, if_neg (by omega)]

theorem sigmaEntry_upper (lfs : LabeledFeatureSet) (lbl k l : Nat) (hkl : k ≤ l) :
    sigmaEntry lfs lbl k l = sigmaDivided lfs lbl k l := by
  unfold sigmaEntry
  rw [if_neg (by omega)]

theorem trainLabels_length_getElem (log : ℚ → ℚ) (twoPi : ℚ) (lfs : LabeledFeatureSet) :
    ∀ (ls : List Nat) (rs : List (List ℚ × List ℚ × ℚ)),
      trainLabels log twoPi lfs ls = some rs →
      rs.length = ls.length ∧
        ∀ i, i < ls.length → ∃ a r, ls[i]? = some a ∧ rs[i]? = some r ∧
          trainLabel log twoPi lfs a = some r
  | [], rs, h => by
    have h' : some ([] : List (List ℚ × List ℚ × ℚ)) = some rs := h
    obtain rfl := Option.some.inj h'
    exact ⟨rfl, fun i hi => absurd hi (by simp)⟩
  | lbl :: rest, rs, h => by
    simp only [trainLabels] at h
    cases hr : trainLabel log twoPi lfs lbl with
    | none =>
      rw [hr] at h
      exact Option.noConfusion h
    | some r =>
      rw [hr] at h
      cases hrs : trainLabels log twoPi lfs rest with
      | none =>
        rw [hrs] at h
        exact Option.noConfusion h
      | some rs' =>
        rw [hrs] at h
        have h' : some (r :: rs') = some rs := h
        obtain rfl := Option.some.inj h'
        obtain ⟨ihlen, ihget⟩ := trainLabels_length_getElem log twoPi lfs rest rs' hrs
        refine ⟨by simp [ihlen], ?_⟩
        intro i hi
        cases i with
        | zero => exact ⟨lbl, r, by simp, by simp, hr⟩
        | succ j =>
          obtain ⟨a, r', ha, hr', htr⟩ := ihget j (by simpa using hi)
          exact ⟨a, r', by simpa using ha, by simpa using hr', htr⟩

theorem trainLabels_eq_none (log : ℚ → ℚ) (twoPi : ℚ) (lfs : LabeledFeatureSet) (bad : Nat)
    (hbad : trainLabel log twoPi lfs bad = none) :
    ∀ ls : List Nat, bad ∈ ls → trainLabels log twoPi lfs ls = none
  | [], hmem => absurd hmem (List.not_mem_nil bad)
  | lbl :: rest, hmem => by
    simp only [trainLabels]
    rcases List.mem_cons.mp hmem with rfl | hmem'
    · rw [hbad]
    · cases hr : trainLabel log twoPi lfs lbl with
      | none => rfl
      | some r =>
        rw [trainLabels_eq_none log twoPi lfs bad hbad rest hmem']

theorem gaussianTrain_eq_none (log : ℚ → ℚ) (twoPi : ℚ) (lfs : LabeledFeatureSet) (lbl : Nat)
    (hlbl : lbl < lfs.LabelCount) (hdet : detQ lfs.Dim (sigmaMat lfs lbl) = 0) :
    GaussianTrain log twoPi lfs = none := by
  have htl : trainLabel log twoPi lfs lbl = none := by
    rw [trainLabel, matInverse_eq_none _ hdet]
  rw [GaussianTrain,
    trainLabels_eq_none log twoPi lfs lbl htl _ (List.mem_range.mpr hlbl)]

theorem gaussianTrain_fields (log : ℚ → ℚ) (twoPi : ℚ) (lfs : LabeledFeatureSet)
    (gc : GaussianClassifier) (h : GaussianTrain log twoPi lfs = some gc) (lbl : Nat)
    (hlbl : lbl < lfs.LabelCount) :
    ∃ inv, matInverse lfs.Dim (sigmaMat lfs lbl) = some inv ∧
      gc.Means[lbl]? = some (meanList lfs lbl) ∧
      gc.Precs[lbl]? = some (matFlatten lfs.Dim ((-(1 / 2) : ℚ) • inv)) ∧
      gc.LogCoefs[lbl]? = some (-(1 / 2) * (log twoPi * (lfs.Dim : ℚ) +
        log (detQ lfs.Dim (sigmaMat lfs lbl)))) ∧
      gc.LogPrior = none := by
  simp only [GaussianTrain] at h
  cases hts : trainLabels log twoPi lfs (List.range lfs.LabelCount) with
  | none =>
    rw [hts] at h
    exact Option.noConfusion h
  | some rs =>
    rw [hts] at h
    have h' : some (⟨rs.map (·.1), rs.map (·.2.1), rs.map (·.2.2), none⟩ :
        GaussianClassifier) = some gc := h
    obtain rfl := Option.some.inj h'
    obtain ⟨hlen, hget⟩ := trainLabels_length_getElem log twoPi lfs _ rs hts
    obtain ⟨a, r, ha, hr, htr⟩ := hget lbl (by rwa [List.length_range])
    rw [List.getElem?_range hlbl] at ha
    obtain rfl := Option.some.inj ha
    rw [trainLabel] at htr
    cases hinv : matInverse lfs.Dim (sigmaMat lfs lbl) with
    | none =>
      rw [hinv] at htr
      exact Option.noConfusion htr
    | some inv =>
      rw [hinv] at htr
      have htr' : some (meanList lfs lbl, matFlatten lfs.Dim ((-(1 / 2) : ℚ) • inv),
          -(1 / 2) * (log twoPi * (lfs.Dim : ℚ) + log (detQ lfs.Dim (sigmaMat lfs lbl)))) =
          some r := htr
      obtain rfl := Option.some.inj htr'
      refine ⟨inv, rfl, ?_, ?_, ?_, rfl⟩
      · show (rs.map (·.1))[lbl]? = _
        rw [List.getElem?_map, hr]
        rfl
      · show (rs.map (·.2.1))[lbl]? = _
        rw [List.getElem?_map, hr]
        rfl
      · show (rs.map (·.2.2))[lbl]? = _
        rw [List.getElem?_map, hr]
        rfl

/-! Helper lemmas about the `SetPrior` loop. -/

theorem setPrior_loop_some (log : ℚ → ℚ) (priors : List ℚ) :
    ∀ (m a : Nat) (cur : List ℚ), a + m ≤ cur.length →
      ∃ r : List ℚ, (List.range' a m).foldlM (setPriorStep log priors) cur = some r ∧
        r.length = cur.length ∧
        (∀ i, (a ≤ i ∧ i < a + m) → r[i]? = some (log (priors.getD i 0))) ∧
        ∀ i, (i < a ∨ a + m ≤ i) → r[i]? = cur[i]?
  | 0, a, cur, _ =>
    ⟨cur, rfl, rfl, fun i hi => absurd hi (by omega), fun i _ => rfl⟩
  | m + 1, a, cur, hlen => by
    rw [List.range'_succ, List.foldlM_cons]
    have ha : a < cur.length := by omega
    rw [setPriorStep, if_pos ha, option_some_bind]
    obtain ⟨r, hfold, hrlen, hmid, hout⟩ :=
      setPrior_loop_some log priors m (a + 1) (cur.set a (log (priors.getD a 0)))
        (by rw [List.length_set]; omega)
    refine ⟨r, hfold, by rw [hrlen, List.length_set], ?_, ?_⟩
    · intro i hi
      rcases Nat.lt_or_ge i (a + 1) with h | h
      · have hia : i = a := by omega
        subst hia
        rw [hout i (Or.inl (by omega))]
        exact List.getElem?_set_self ha
      · exact hmid i (by omega)
    · intro i hi
      have hi' : i < a + 1 ∨ a + 1 + m ≤ i := by omega
      rw [hout i (by omega)]
      exact List.getElem?_set_ne (by omega)

theorem setPrior_loop_none (log : ℚ → ℚ) (priors : List ℚ) :
    ∀ (m a : Nat) (cur : List ℚ), a ≤ cur.length → cur.length < a + m →
      (List.range' a m).foldlM (setPriorStep log priors) cur = none
  | 0, a, cur, h1, h2 => by omega
  | m + 1, a, cur, h1, h2 => by
    rw [List.range'_succ, List.foldlM_cons]
    rcases eq_or_lt_of_le h1 with heq | hlt
    · rw [setPriorStep, if_neg (by omega)]
      rfl
    · rw [setPriorStep, if_pos hlt, option_some_bind]
      exact setPrior_loop_none log priors m (a + 1) _
        (by rw [List.length_set]; omega) (by rw [List.length_set]; omega)

/-! The claim theorems. -/

/-- C1: `Classify` computes the log-posterior score of `x` for each label in
ascending order `0..labelCount-1` and returns the label whose score is
maximal, ties broken in favour of the first (lowest-indexed) label because
the running best is replaced only on a strict `>` comparison; and when
`labelCount = 0` it returns the sentinel label `-1` instead of failing. -/
theorem spec_c1_classify_argmax (gc : GaussianClassifier) (x : List ℚ) (f : Nat → ℚ)
    (hs : ∀ lbl, lbl < gc.LogCoefs.length → LogPosterior gc lbl x = some (f lbl)) :
    (gc.LogCoefs.length = 0 → Classify gc x = some (-1)) ∧
    (0 < gc.LogCoefs.length →
      ∃ r : Nat, Classify gc x = some (r : Int) ∧ r < gc.LogCoefs.length ∧
        (∀ j, j < gc.LogCoefs.length → f j ≤ f r) ∧
        ∀ j, j < r → f j < f r) := by
  constructor
  · intro h0
    rw [Classify, h0]
    rfl
  · intro hn
    rw [Classify, classifyAux_range_pos _ _ _ 0 hn (f 0) (hs 0 hn)]
    obtain ⟨r, hr, hrlt, hrle, hrgt⟩ :=
      classifyAux_argmax (fun lbl => LogPosterior gc lbl x) f (gc.LogCoefs.length - 1) 1 0
        (f 0) (fun l hl1 hl2 => hs l (by omega)) (by omega) rfl
        (fun j hj => by
          have hj0 : j = 0 := by omega
          rw [hj0])
        (fun j hj => absurd hj (by omega))
    exact ⟨r, hr, by omega, fun j hj => hrle j (by omega), hrgt⟩

/-- Witness for C1: a two-label model where label 0 scores `0` and label 1
scores `-1` on the query `[0]`, so classification returns label 0. -/
theorem spec_c1_witness :
    (∀ lbl, lbl < ([(0 : ℚ), 0]).length →
      LogPosterior ⟨[[0], [1]], [[-1], [-1]], [0, 0], none⟩ lbl [0] =
        some (if lbl = 0 then 0 else -1)) ∧
    (0 < ([(0 : ℚ), 0]).length →
      ∃ r : Nat, Classify ⟨[[0], [1]], [[-1], [-1]], [0, 0], none⟩ [0] = some (r : Int) ∧
        r < ([(0 : ℚ), 0]).length ∧
        (∀ j, j < ([(0 : ℚ), 0]).length →
          (if j = 0 then (0 : ℚ) else -1) ≤ (if r = 0 then (0 : ℚ) else -1)) ∧
        ∀ j, j < r → (if j = 0 then (0 : ℚ) else -1) < (if r = 0 then (0 : ℚ) else -1)) := by
  have hs : ∀ lbl, lbl < ([(0 : ℚ), 0]).length →
      LogPosterior ⟨[[0], [1]], [[-1], [-1]], [0, 0], none⟩ lbl [0] =
        some (if lbl = 0 then 0 else -1) := by
    with_unfolding_all decide
  exact ⟨hs, (spec_c1_classify_argmax ⟨[[0], [1]], [[-1], [-1]], [0, 0], none⟩ [0]
    (fun lbl => if lbl = 0 then 0 else -1) hs).2⟩

/-- C9: for a model with at least one label whose scores all compute, the
classification loop returns a label in `[0, labelCount)` and never the
sentinel `-1`, whatever the boolean comparison does: the first label always
replaces the initial sentinel through the `bestLabel < 0` test, and under a
comparison that is constantly `false` (the float `>` on NaN scores) later
iterations keep that label. The first conjunct states this for the loop with
an arbitrary carrier and comparison, the second instantiates it for
`Classify`. -/
theorem spec_c9_classify_in_range :
    (∀ (F : Type) (gt : F → F → Bool) (f : Nat → F) (n : Nat) (b0 : F), 0 < n →
      ∃ r : Nat, classifyAux gt (fun l => some (f l)) (List.range n) b0 (-1) =
        some (r : Int) ∧ r < n) ∧
    ∀ (gc : GaussianClassifier) (x : List ℚ) (f : Nat → ℚ), 0 < gc.LogCoefs.length →
      (∀ lbl, lbl < gc.LogCoefs.length → LogPosterior gc lbl x = some (f lbl)) →
      ∃ r : Nat, Classify gc x = some (r : Int) ∧ r < gc.LogCoefs.length := by
  constructor
  · intro F gt f n b0 hn
    rw [classifyAux_range_pos gt _ n b0 hn (f 0) rfl]
    refine classifyAux_mem gt _ n _ (f 0) 0 ?_ hn
    intro l hl
    obtain ⟨i, hi, hl'⟩ := List.mem_range'.mp hl
    exact ⟨by omega, f l, rfl⟩
  · intro gc x f hn hs
    rw [Classify, classifyAux_range_pos _ _ _ 0 hn (f 0) (hs 0 hn)]
    refine classifyAux_mem _ _ gc.LogCoefs.length _ (f 0) 0 ?_ hn
    intro l hl
    obtain ⟨i, hi, hl'⟩ := List.mem_range'.mp hl
    exact ⟨by omega, f l, hs l (by omega)⟩

/-- Witness for C9: two labels whose comparison is constantly `false`
(modelling NaN scores); the loop still returns label 0, and `Classify` on a
concrete model returns a label below the label count. -/
theorem spec_c9_witness :
    (∃ r : Nat, classifyAux (fun _ _ : ℚ => false) (fun l => some ((l : ℚ)))
        (List.range 2) 0 (-1) = some (r : Int) ∧ r < 2) ∧
    ∃ r : Nat, Classify ⟨[[0], [1]], [[-1], [-1]], [0, 0], none⟩ [0] = some (r : Int) ∧
      r < ([(0 : ℚ), 0]).length := by
  constructor
  · exact spec_c9_classify_in_range.1 ℚ (fun _ _ => false) (fun l => (l : ℚ)) 2 0 (by decide)
  · exact spec_c9_classify_in_range.2 ⟨[[0], [1]], [[-1], [-1]], [0, 0], none⟩ [0]
      (fun lbl => if lbl = 0 then 0 else -1) (by decide) (by with_unfolding_all decide)

/-- C2: for every model whose slices are consistent at `label` and every
query `x` of length `dim`, `LogLikelyhood label x` equals
`logCoef[label] + (x - mean)ᵀ · precision · (x - mean)`, the bilinear form
of the stored row-major precision matrix, with no additional scaling. -/
theorem spec_c2_loglikelyhood_bilinear (gc : GaussianClassifier) (label : Nat)
    (x mean prec : List ℚ) (c : ℚ) (hc : gc.LogCoefs[label]? = some c)
    (hm : gc.Means[label]? = some mean) (hp : gc.Precs[label]? = some prec)
    (hx : x.length = mean.length) (hpl : prec.length = mean.length * mean.length) :
    LogLikelyhood gc label x =
      some (c + ∑ k ∈ Finset.range mean.length, ∑ l ∈ Finset.range mean.length,
        (x.getD k 0 - mean.getD k 0) * (x.getD l 0 - mean.getD l 0) *
          prec.getD (k * mean.length + l) 0) :=
  logLikelyhood_eq_sum gc label x mean prec c hc hm hp (le_of_eq hx.symm) hpl

/-- Witness for C2: a dimension-2 model with identity precision, evaluated at
a concrete query. -/
theorem spec_c2_witness :
    LogLikelyhood ⟨[[1, 2]], [[1, 0, 0, 1]], [5], none⟩ 0 [2, 4] =
      some (5 + ∑ k ∈ Finset.range ([(1 : ℚ), 2]).length,
        ∑ l ∈ Finset.range ([(1 : ℚ), 2]).length,
        (([(2 : ℚ), 4]).getD k 0 - ([(1 : ℚ), 2]).getD k 0) *
          (([(2 : ℚ), 4]).getD l 0 - ([(1 : ℚ), 2]).getD l 0) *
          ([(1 : ℚ), 0, 0, 1]).getD (k * ([(1 : ℚ), 2]).length + l) 0) :=
  spec_c2_loglikelyhood_bilinear ⟨[[1, 2]], [[1, 0, 0, 1]], [5], none⟩ 0 [2, 4] [1, 2]
    [1, 0, 0, 1] 5 (by with_unfolding_all decide) (by with_unfolding_all decide)
    (by with_unfolding_all decide) (by decide) (by decide)

/-- C7: `LogPosterior` equals `LogLikelyhood` when no prior is set and adds
`logPrior[label]` when priors have been set; and `SetPrior` stores
`log(priors[i])` for every index covered by the supplied slice. -/
theorem spec_c7_logposterior_prior :
    (∀ (gc : GaussianClassifier) (label : Nat) (x : List ℚ), gc.LogPrior = none →
      LogPosterior gc label x = LogLikelyhood gc label x) ∧
    (∀ (gc : GaussianClassifier) (label : Nat) (x : List ℚ) (lp : List ℚ) (p : ℚ),
      gc.LogPrior = some lp → lp[label]? = some p →
      LogPosterior gc label x = (LogLikelyhood gc label x).map (· + p)) ∧
    ∀ (log : ℚ → ℚ) (lp0 : Option (List ℚ)) (priors res : List ℚ),
      SetPrior log lp0 priors = some res →
      ∀ i, i < priors.length → res[i]? = some (log (priors.getD i 0)) := by
  refine ⟨?_, ?_, ?_⟩
  · intro gc label x hnone
    rw [LogPosterior, hnone]
  · intro gc label x lp p hsome hp
    rw [LogPosterior, hsome]
    show (do
      let ll ← LogLikelyhood gc label x
      let q ← lp[label]?
      pure (ll + q)) = (LogLikelyhood gc label x).map (· + p)
    cases hll : LogLikelyhood gc label x with
    | none => rfl
    | some v =>
      rw [option_some_bind, hp]
      rfl
  · intro log lp0 priors res hsp i hi
    simp only [SetPrior] at hsp
    cases lp0 with
    | none =>
      rw [List.range_eq_range'] at hsp
      obtain ⟨r, hr, _, hmid, _⟩ := setPrior_loop_some log priors priors.length 0
        (List.replicate priors.length 0) (by simp)
      rw [hr] at hsp
      obtain rfl := Option.some.inj hsp
      exact hmid i ⟨Nat.zero_le i, by omega⟩
    | some l =>
      rw [List.range_eq_range'] at hsp
      rcases le_or_lt priors.length l.length with hle | hgt
      · obtain ⟨r, hr, _, hmid, _⟩ := setPrior_loop_some log priors priors.length 0 l
          (by omega)
        rw [hr] at hsp
        obtain rfl := Option.some.inj hsp
        exact hmid i ⟨Nat.zero_le i, by omega⟩
      · rw [setPrior_loop_none log priors priors.length 0 l (Nat.zero_le _) (by omega)] at hsp
        exact Option.noConfusion hsp

/-- Witness for C7: without a prior the posterior is the likelyhood; with the
prior slice `[3, 4]` the posterior of label 1 adds `4`; and a first
`SetPrior` call with `log = id` stores the priors themselves. -/
theorem spec_c7_witness :
    (LogPosterior ⟨[[0]], [[-1]], [0], none⟩ 0 [0] =
      LogLikelyhood ⟨[[0]], [[-1]], [0], none⟩ 0 [0]) ∧
    (LogPosterior ⟨[[0], [1]], [[-1], [-1]], [0, 0], some [3, 4]⟩ 1 [0] =
      (LogLikelyhood ⟨[[0], [1]], [[-1], [-1]], [0, 0], some [3, 4]⟩ 1 [0]).map (· + 4)) ∧
    ∀ i, i < ([(5 : ℚ), 7]).length →
      ([(5 : ℚ), 7])[i]? = some (id (([(5 : ℚ), 7]).getD i 0)) := by
  refine ⟨?_, ?_, ?_⟩
  · exact spec_c7_logposterior_prior.1 ⟨[[0]], [[-1]], [0], none⟩ 0 [0] rfl
  · exact spec_c7_logposterior_prior.2.1 ⟨[[0], [1]], [[-1], [-1]], [0, 0], some [3, 4]⟩ 1 [0]
      [3, 4] 4 rfl (by with_unfolding_all decide)
  · exact spec_c7_logposterior_prior.2.2 id none [5, 7] [5, 7] (by with_unfolding_all decide)

/-- C10: `SetPrior` allocates the log-prior slice only when none exists,
sized to the first call's argument; a later call whose priors are strictly
longer than the existing slice runs off its end (the out-of-range assignment
panics instead of growing the slice), and a later call with strictly fewer
priors rewrites only a prefix, leaving the tail entries at their previous
values rather than clearing or rejecting them. -/
theorem spec_c10_setprior_aliasing :
    (∀ (log : ℚ → ℚ) (priors : List ℚ),
      ∃ res, SetPrior log none priors = some res ∧ res.length = priors.length) ∧
    (∀ (log : ℚ → ℚ) (lp priors : List ℚ), lp.length < priors.length →
      SetPrior log (some lp) priors = none) ∧
    ∀ (log : ℚ → ℚ) (lp priors : List ℚ), priors.length ≤ lp.length →
      ∃ res, SetPrior log (some lp) priors = some res ∧ res.length = lp.length ∧
        (∀ i, i < priors.length → res[i]? = some (log (priors.getD i 0))) ∧
        ∀ i, priors.length ≤ i → res[i]? = lp[i]? := by
  refine ⟨?_, ?_, ?_⟩
  · intro log priors
    obtain ⟨r, hr, hrlen, _, _⟩ := setPrior_loop_some log priors priors.length 0
      (List.replicate priors.length 0) (by simp)
    refine ⟨r, ?_, by rw [hrlen, List.length_replicate]⟩
    simp only [SetPrior]
    rw [List.range_eq_range']
    exact hr
  · intro log lp priors hlt
    simp only [SetPrior]
    rw [List.range_eq_range']
    exact setPrior_loop_none log priors priors.length 0 lp (Nat.zero_le _) (by omega)
  · intro log lp priors hle
    obtain ⟨r, hr, hrlen, hmid, hout⟩ := setPrior_loop_some log priors priors.length 0 lp
      (by omega)
    refine ⟨r, ?_, hrlen, ?_, ?_⟩
    · simp only [SetPrior]
      rw [List.range_eq_range']
      exact hr
    · intro i hi
      exact hmid i ⟨Nat.zero_le i, by omega⟩
    · intro i hi
      exact hout i (Or.inr (by omega))

/-- Witness for C10: a first call with two priors allocates a slice of
length two; a second call with three priors on a length-two slice panics;
a second call with one prior on a length-two slice rewrites index 0 and
keeps index 1. -/
theorem spec_c10_witness :
    (∃ res, SetPrior id none [5, 7] = some res ∧ res.length = ([(5 : ℚ), 7]).length) ∧
    (SetPrior id (some [1, 2]) [5, 7, 9] = none) ∧
    ∃ res, SetPrior id (some [1, 2]) [5] = some res ∧ res.length = ([(1 : ℚ), 2]).length ∧
      (∀ i, i < ([(5 : ℚ)]).length → res[i]? = some (id (([(5 : ℚ)]).getD i 0))) ∧
      ∀ i, ([(5 : ℚ)]).length ≤ i → res[i]? = ([(1 : ℚ), 2])[i]? := by
  refine ⟨?_, ?_, ?_⟩
  · exact spec_c10_setprior_aliasing.1 id [5, 7]
  · exact spec_c10_setprior_aliasing.2.1 id [1, 2] [5, 7, 9] (by decide)
  · exact spec_c10_setprior_aliasing.2.2 id [1, 2] [5] (by decide)

/-- Length of the row-major flattening of a `dim`-by-`dim` matrix. -/
theorem matFlatten_length (n : Nat) (A : Matrix (Fin n) (Fin n) ℚ) :
    (matFlatten n A).length = n * n := by
  rw [matFlatten, List.length_flatMap]
  have hmap : List.map (List.length ∘ fun k => (List.finRange n).map fun l => A k l)
      (List.finRange n) = List.map (fun _ => n) (List.finRange n) := by
    refine List.map_congr_left fun k _ => ?_
    simp
  rw [hmap]
  simp [List.map_const']

/-- A trained classifier has one log-coefficient per label of the source. -/
theorem gaussianTrain_logCoefs_length (log : ℚ → ℚ) (twoPi : ℚ) (lfs : LabeledFeatureSet)
    (gc : GaussianClassifier) (h : GaussianTrain log twoPi lfs = some gc) :
    gc.LogCoefs.length = lfs.LabelCount := by
  simp only [GaussianTrain] at h
  cases hts : trainLabels log twoPi lfs (List.range lfs.LabelCount) with
  | none =>
    rw [hts] at h
    exact Option.noConfusion h
  | some rs =>
    rw [hts] at h
    have h' : some (⟨rs.map (·.1), rs.map (·.2.1), rs.map (·.2.2), none⟩ :
        GaussianClassifier) = some gc := h
    obtain rfl := Option.some.inj h'
    show (rs.map (·.2.2)).length = lfs.LabelCount
    rw [List.length_map, (trainLabels_length_getElem log twoPi lfs _ rs hts).1,
      List.length_range]

/-- On a query at least as long as the model dimension, `LogLikelyhood` only
reads the first `dim` components of `x`: it equals the call on
`x.take dim`. -/
theorem logLikelyhood_take (gc : GaussianClassifier) (label : Nat) (x mean prec : List ℚ)
    (c : ℚ) (hc : gc.LogCoefs[label]? = some c) (hm : gc.Means[label]? = some mean)
    (hp : gc.Precs[label]? = some prec) (hpl : prec.length = mean.length * mean.length)
    (hx : mean.length ≤ x.length) :
    LogLikelyhood gc label x = LogLikelyhood gc label (x.take mean.length) := by
  have htlen : mean.length ≤ (x.take mean.length).length := by
    rw [List.length_take]
    omega
  have hgd : ∀ k, k < mean.length → (x.take mean.length).getD k 0 = x.getD k 0 := by
    intro k hk
    have h1 : (x.take mean.length)[k]? = x[k]? := by
      rw [List.getElem?_take, if_pos hk]
    have hk1 : k < (x.take mean.length).length := by omega
    have hk2 : k < x.length := by omega
    rw [getElem?_eq_some_getD _ _ hk1, getElem?_eq_some_getD _ _ hk2] at h1
    exact Option.some.inj h1
  rw [logLikelyhood_eq_sum gc label x mean prec c hc hm hp hx hpl,
    logLikelyhood_eq_sum gc label _ mean prec c hc hm hp htlen hpl]
  refine congrArg some (congrArg (fun s => c + s) ?_)
  refine Finset.sum_congr rfl fun k hk => Finset.sum_congr rfl fun l hl => ?_
  rw [hgd k (Finset.mem_range.mp hk), hgd l (Finset.mem_range.mp hl)]

/-- C8 counterexample: a trained one-dimensional model for which the
log-likelyhood of the two-component query `[1, 99]` succeeds (no failure is
reported) and equals its value on the truncated query `[1]`, refuting the
claim that every query whose length differs from `dim` makes the call
fail. -/
theorem spec_c8_counterexample :
    GaussianTrain id 7 ⟨1, 1, fun _ => 2, fun _ i _ => 2 * i⟩ =
        some ⟨[[1]], [[-(1 / 4)]], [-(1 / 2) * (7 + 2)], none⟩ ∧
      ([(1 : ℚ), 99]).length ≠ ([(1 : ℚ)]).length ∧
      LogLikelyhood ⟨[[1]], [[-(1 / 4)]], [-(1 / 2) * (7 + 2)], none⟩ 0 [1, 99] =
        some (-(1 / 2) * (7 + 2)) ∧
      LogLikelyhood ⟨[[1]], [[-(1 / 4)]], [-(1 / 2) * (7 + 2)], none⟩ 0 [1] =
        some (-(1 / 2) * (7 + 2)) := by
  refine ⟨?_, ?_, ?_, ?_⟩ <;> with_unfolding_all decide

/-- C8 amended: a query strictly shorter than the model dimension makes the
log-likelyhood fail (out-of-range read, a panic), and classification, which
scores label 0 first, fails the same way; but a query strictly longer than
the dimension is not rejected: the log-likelyhood succeeds and silently uses
only the first `dim` components of `x` (it equals the call on `x.take dim`),
and classification on a trained model likewise equals classification of
`x.take dim`. -/
theorem spec_c8_dimension_mismatch :
    (∀ (gc : GaussianClassifier) (label : Nat) (x mean prec : List ℚ) (c : ℚ),
      gc.LogCoefs[label]? = some c → gc.Means[label]? = some mean →
      gc.Precs[label]? = some prec → prec.length = mean.length * mean.length →
      x.length < mean.length → LogLikelyhood gc label x = none) ∧
    (∀ (gc : GaussianClassifier) (label : Nat) (x mean prec : List ℚ) (c : ℚ),
      gc.LogCoefs[label]? = some c → gc.Means[label]? = some mean →
      gc.Precs[label]? = some prec → prec.length = mean.length * mean.length →
      mean.length ≤ x.length →
      LogLikelyhood gc label x = LogLikelyhood gc label (x.take mean.length)) ∧
    (∀ (gc : GaussianClassifier) (x mean prec : List ℚ) (c : ℚ),
      gc.LogPrior = none → gc.LogCoefs[0]? = some c → gc.Means[0]? = some mean →
      gc.Precs[0]? = some prec → prec.length = mean.length * mean.length →
      x.length < mean.length → 0 < gc.LogCoefs.length → Classify gc x = none) ∧
    ∀ (log : ℚ → ℚ) (twoPi : ℚ) (lfs : LabeledFeatureSet) (gc : GaussianClassifier),
      GaussianTrain log twoPi lfs = some gc → ∀ x : List ℚ, lfs.Dim ≤ x.length →
      Classify gc x = Classify gc (x.take lfs.Dim) := by
  refine ⟨?_, ?_, ?_, ?_⟩
  · intro gc label x mean prec c hc hm hp hpl hx
    exact logLikelyhood_eq_none gc label x mean prec c hc hm hp hpl hx
  · intro gc label x mean prec c hc hm hp hpl hx
    exact logLikelyhood_take gc label x mean prec c hc hm hp hpl hx
  · intro gc x mean prec c hprior hc hm hp hpl hx hn
    rw [Classify]
    obtain ⟨m, hlen⟩ : ∃ m, gc.LogCoefs.length = m + 1 := ⟨gc.LogCoefs.length - 1, by omega⟩
    rw [hlen, List.range_eq_range', List.range'_succ]
    apply classifyAux_head_none
    rw [LogPosterior, hprior]
    exact logLikelyhood_eq_none gc 0 x mean prec c hc hm hp hpl hx
  · intro log twoPi lfs gc h x hx
    simp only [Classify]
    apply classifyAux_congr
    intro l hl
    have hl' : l < lfs.LabelCount := by
      rw [← gaussianTrain_logCoefs_length log twoPi lfs gc h]
      exact List.mem_range.mp hl
    obtain ⟨inv, hinv, hmeans, hprecs, hcoefs, hprior⟩ :=
      gaussianTrain_fields log twoPi lfs gc h l hl'
    have hml := meanList_length lfs l
    have hpl : (matFlatten lfs.Dim ((-(1 / 2) : ℚ) • inv)).length =
        (meanList lfs l).length * (meanList lfs l).length := by
      rw [matFlatten_length, hml]
    have hLL := logLikelyhood_take gc l x (meanList lfs l) _ _ hcoefs hmeans hprecs hpl
      (by rw [hml]; exact hx)
    rw [hml] at hLL
    simp only [LogPosterior, hprior]
    exact hLL

/-- Witness for C8 (amended): on the concrete one-dimensional model, the
empty query makes log-likelyhood and classification fail, while the length-2
query equals its truncation to the first component. -/
theorem spec_c8_amended_witness :
    LogLikelyhood ⟨[[1]], [[-(1 / 4)]], [-(1 / 2) * (7 + 2)], none⟩ 0 [] = none ∧
    LogLikelyhood ⟨[[1]], [[-(1 / 4)]], [-(1 / 2) * (7 + 2)], none⟩ 0 [1, 99] =
      LogLikelyhood ⟨[[1]], [[-(1 / 4)]], [-(1 / 2) * (7 + 2)], none⟩ 0
        (([(1 : ℚ), 99]).take ([(1 : ℚ)]).length) ∧
    Classify ⟨[[1]], [[-(1 / 4)]], [-(1 / 2) * (7 + 2)], none⟩ [] = none ∧
    Classify ⟨[[1]], [[-(1 / 4)]], [-(1 / 2) * (7 + 2)], none⟩ [1, 99] =
      Classify ⟨[[1]], [[-(1 / 4)]], [-(1 / 2) * (7 + 2)], none⟩
        (([(1 : ℚ), 99]).take
          (⟨1, 1, fun _ => 2, fun _ i _ => 2 * i⟩ : LabeledFeatureSet).Dim) := by
  refine ⟨?_, ?_, ?_, ?_⟩
  · exact spec_c8_dimension_mismatch.1 _ 0 [] [1] [-(1 / 4)] (-(1 / 2) * (7 + 2))
      (by with_unfolding_all decide) (by with_unfolding_all decide)
      (by with_unfolding_all decide) (by decide) (by decide)
  · exact spec_c8_dimension_mismatch.2.1 _ 0 [1, 99] [1] [-(1 / 4)] (-(1 / 2) * (7 + 2))
      (by with_unfolding_all decide) (by with_unfolding_all decide)
      (by with_unfolding_all decide) (by decide) (by decide)
  · exact spec_c8_dimension_mismatch.2.2.1 _ [] [1] [-(1 / 4)] (-(1 / 2) * (7 + 2)) rfl
      (by with_unfolding_all decide) (by with_unfolding_all decide)
      (by with_unfolding_all decide) (by decide) (by decide) (by decide)
  · exact spec_c8_dimension_mismatch.2.2.2 id 7 ⟨1, 1, fun _ => 2, fun _ i _ => 2 * i⟩ _
      (by with_unfolding_all decide) [1, 99] (by decide)

/-- C5: if any label's sample covariance matrix is singular (determinant
zero, i.e. not invertible), the entire training operation returns no model
at all — no partially built model is ever returned. -/
theorem spec_c5_singular_covariance_fails (log : ℚ → ℚ) (twoPi : ℚ)
    (lfs : LabeledFeatureSet) (lbl : Nat) (hlbl : lbl < lfs.LabelCount)
    (hdet : (sigmaMat lfs lbl).det = 0) :
    GaussianTrain log twoPi lfs = none :=
  gaussianTrain_eq_none log twoPi lfs lbl hlbl (by rw [detQ_eq_det]; exact hdet)

/-- Witness for C5: one label with two identical samples has the zero
covariance matrix, and training returns no model. -/
theorem spec_c5_witness :
    (sigmaMat ⟨1, 1, fun _ => 2, fun _ _ _ => 3⟩ 0).det = 0 ∧
      GaussianTrain id 7 ⟨1, 1, fun _ => 2, fun _ _ _ => 3⟩ = none := by
  have hdet : (sigmaMat ⟨1, 1, fun _ => 2, fun _ _ _ => 3⟩ 0).det = 0 := by
    rw [← detQ_eq_det]
    with_unfolding_all decide
  exact ⟨hdet, spec_c5_singular_covariance_fails id 7 _ 0 (by decide) hdet⟩

/-- C6: a label with zero samples or one sample makes training fail and
return no model (for a feature source with positive dimension, as the
feature-access contract requires): with no samples the accumulated
covariance is the zero matrix, and with one sample the mean equals the
sample exactly so the raw uncorrected covariance sum is again the zero
matrix; either way the singular matrix propagates to a whole-training
failure rather than being silently accepted. -/
theorem spec_c6_degenerate_counts_fail (log : ℚ → ℚ) (twoPi : ℚ)
    (lfs : LabeledFeatureSet) (lbl : Nat) (hlbl : lbl < lfs.LabelCount)
    (hcnt : lfs.FeatureCount lbl ≤ 1) (hdim : 0 < lfs.Dim) :
    GaussianTrain log twoPi lfs = none := by
  apply gaussianTrain_eq_none log twoPi lfs lbl hlbl
  rw [detQ_eq_det]
  have hdiv : ∀ a b : Nat, a < lfs.Dim → b < lfs.Dim → sigmaDivided lfs lbl a b = 0 := by
    intro a b ha hb
    rw [sigmaDivided, if_neg (by omega), sigmaUpper,
      meanList_getD lfs lbl a ha, meanList_getD lfs lbl b hb]
    rcases Nat.le_one_iff_eq_zero_or_eq_one.mp hcnt with h0 | h1
    · rw [h0]
      simp
    · rw [h1]
      simp
  have hzero : sigmaMat lfs lbl = 0 := by
    ext k l
    simp only [sigmaMat, Matrix.of_apply, Matrix.zero_apply, sigmaEntry]
    rcases Nat.lt_or_ge (l : Nat) (k : Nat) with h | h
    · rw [if_pos h]
      exact hdiv l k l.isLt k.isLt
    · rw [if_neg (by omega)]
      exact hdiv k l k.isLt l.isLt
  rw [hzero]
  exact Matrix.det_zero ⟨⟨0, hdim⟩⟩

/-- Witness for C6: a single label with exactly one sample; training returns
no model. -/
theorem spec_c6_witness :
    (⟨1, 1, fun _ => 1, fun _ _ _ => 5⟩ : LabeledFeatureSet).FeatureCount 0 ≤ 1 ∧
      GaussianTrain id 7 ⟨1, 1, fun _ => 1, fun _ _ _ => 5⟩ = none :=
  ⟨by decide, spec_c6_degenerate_counts_fail id 7 _ 0 (by decide) (by decide) (by decide)⟩

/-- C3: for every trained label with at least two samples, the stored mean
is the coordinate-wise arithmetic mean of the label's samples; the
covariance matrix handed to inversion is exactly symmetric (the lower
triangle is a mirror copy of the upper one, identical values); and each
upper-triangle entry is the accumulated centred product sum divided by
`sampleCount - 1` (Bessel's correction). -/
theorem spec_c3_mean_covariance (log : ℚ → ℚ) (twoPi : ℚ) (lfs : LabeledFeatureSet)
    (gc : GaussianClassifier) (h : GaussianTrain log twoPi lfs = some gc) (lbl : Nat)
    (hlbl : lbl < lfs.LabelCount) (hcnt : 2 ≤ lfs.FeatureCount lbl) :
    (∃ m, gc.Means[lbl]? = some m ∧ m.length = lfs.Dim ∧
      ∀ k, k < lfs.Dim → m.getD k 0 =
        (∑ i ∈ Finset.range (lfs.FeatureCount lbl), lfs.FetchFeature lbl i k) /
          (lfs.FeatureCount lbl : ℚ)) ∧
    (∀ k l : Fin lfs.Dim, sigmaMat lfs lbl k l = sigmaMat lfs lbl l k) ∧
    ∀ k l : Fin lfs.Dim, (k : Nat) ≤ (l : Nat) →
      sigmaMat lfs lbl k l =
        (∑ i ∈ Finset.range (lfs.FeatureCount lbl),
          (lfs.FetchFeature lbl i k -
            (∑ j ∈ Finset.range (lfs.FeatureCount lbl), lfs.FetchFeature lbl j k) /
              (lfs.FeatureCount lbl : ℚ)) *
          (lfs.FetchFeature lbl i l -
            (∑ j ∈ Finset.range (lfs.FeatureCount lbl), lfs.FetchFeature lbl j l) /
              (lfs.FeatureCount lbl : ℚ))) /
        ((lfs.FeatureCount lbl : ℚ) - 1) := by
  obtain ⟨inv, hinv, hmeans, hprecs, hcoefs, hprior⟩ :=
    gaussianTrain_fields log twoPi lfs gc h lbl hlbl
  refine ⟨⟨meanList lfs lbl, hmeans, meanList_length lfs lbl, ?_⟩, ?_, ?_⟩
  · intro k hk
    exact meanList_getD lfs lbl k hk
  · intro k l
    simp only [sigmaMat, Matrix.of_apply]
    exact sigmaEntry_symm lfs lbl k l
  · intro k l hkl
    simp only [sigmaMat, Matrix.of_apply]
    rw [sigmaEntry_upper lfs lbl k l hkl, sigmaDivided, if_pos (by omega), sigmaUpper,
      meanList_getD lfs lbl k k.isLt, meanList_getD lfs lbl l l.isLt,
      Nat.cast_sub (by omega : 1 ≤ lfs.FeatureCount lbl), Nat.cast_one]

/-- A concrete feature source for the C3 witness: one label, dimension 1,
two samples `0` and `2`. -/
def lfsW3 : LabeledFeatureSet := ⟨1, 1, fun _ => 2, fun _ i _ => 2 * i⟩

/-- Witness for C3 at the model trained from `lfsW3`. -/
theorem spec_c3_witness :
    (∃ m, (⟨[[1]], [[-(1 / 4)]], [-(1 / 2) * (7 + 2)], none⟩ :
        GaussianClassifier).Means[0]? = some m ∧ m.length = lfsW3.Dim ∧
      ∀ k, k < lfsW3.Dim → m.getD k 0 =
        (∑ i ∈ Finset.range (lfsW3.FeatureCount 0), lfsW3.FetchFeature 0 i k) /
          (lfsW3.FeatureCount 0 : ℚ)) ∧
    (∀ k l : Fin lfsW3.Dim, sigmaMat lfsW3 0 k l = sigmaMat lfsW3 0 l k) ∧
    ∀ k l : Fin lfsW3.Dim, (k : Nat) ≤ (l : Nat) →
      sigmaMat lfsW3 0 k l =
        (∑ i ∈ Finset.range (lfsW3.FeatureCount 0),
          (lfsW3.FetchFeature 0 i k -
            (∑ j ∈ Finset.range (lfsW3.FeatureCount 0), lfsW3.FetchFeature 0 j k) /
              (lfsW3.FeatureCount 0 : ℚ)) *
          (lfsW3.FetchFeature 0 i l -
            (∑ j ∈ Finset.range (lfsW3.FeatureCount 0), lfsW3.FetchFeature 0 j l) /
              (lfsW3.FeatureCount 0 : ℚ))) /
        ((lfsW3.FeatureCount 0 : ℚ) - 1) :=
  spec_c3_mean_covariance id 7 lfsW3 _ (by with_unfolding_all decide) 0 (by decide)
    (by decide)

/-- C4: in every trained model, the stored precision slice of each label is
the row-major flattening of `-1/2` times the true inverse of that label's
sample covariance matrix, and the stored log-coefficient equals
`-1/2 * (dim * log(2*Pi) + log(det Sigma))`; the covariance determinant is
necessarily nonzero since training succeeded. -/
theorem spec_c4_precision_logcoef (log : ℚ → ℚ) (twoPi : ℚ) (lfs : LabeledFeatureSet)
    (gc : GaussianClassifier) (h : GaussianTrain log twoPi lfs = some gc) (lbl : Nat)
    (hlbl : lbl < lfs.LabelCount) :
    (sigmaMat lfs lbl).det ≠ 0 ∧
    gc.Precs[lbl]? = some (matFlatten lfs.Dim ((-(1 / 2) : ℚ) • (sigmaMat lfs lbl)⁻¹)) ∧
    gc.LogCoefs[lbl]? = some (-(1 / 2) * ((lfs.Dim : ℚ) * log twoPi +
      log ((sigmaMat lfs lbl).det))) := by
  obtain ⟨inv, hinv, hmeans, hprecs, hcoefs, hprior⟩ :=
    gaussianTrain_fields log twoPi lfs gc h lbl hlbl
  have hdet : detQ lfs.Dim (sigmaMat lfs lbl) ≠ 0 := by
    intro h0
    rw [matInverse_eq_none _ h0] at hinv
    exact Option.noConfusion hinv
  rw [matInverse_eq_inv _ hdet] at hinv
  obtain rfl := Option.some.inj hinv
  rw [detQ_eq_det] at hdet
  refine ⟨hdet, hprecs, ?_⟩
  rw [hcoefs, detQ_eq_det]
  exact congrArg some (by ring)

/-- A concrete feature source for the C4 witness: one label, dimension 1,
two samples `0` and `4`. -/
def lfsW4 : LabeledFeatureSet := ⟨1, 1, fun _ => 2, fun _ i _ => 4 * i⟩

/-- Witness for C4 at the model trained from `lfsW4`. -/
theorem spec_c4_witness :
    (sigmaMat lfsW4 0).det ≠ 0 ∧
    (⟨[[2]], [[-(1 / 16)]], [-(1 / 2) * (7 + 8)], none⟩ :
        GaussianClassifier).Precs[0]? =
      some (matFlatten lfsW4.Dim ((-(1 / 2) : ℚ) • (sigmaMat lfsW4 0)⁻¹)) ∧
    (⟨[[2]], [[-(1 / 16)]], [-(1 / 2) * (7 + 8)], none⟩ :
        GaussianClassifier).LogCoefs[0]? =
      some (-(1 / 2) * ((lfsW4.Dim : ℚ) * id 7 + id ((sigmaMat lfsW4 0).det))) :=
  spec_c4_precision_logcoef id 7 lfsW4 _ (by with_unfolding_all decide) 0 (by decide)
